import Mathlib

/-!
# Verification of `classify_212_comments`

A shallow embedding, in Lean 4, of the batch classification pipeline of
`classify.py` and the human validation loop of `validate.py`.

Python strings manipulated character-by-character (chunking, regular
expression search over the model answer) are modelled as `List Char`;
identifiers and labels are modelled as `String`.  Python `int` values that
can be negative (`--max-tokens`, `num_samples`) are modelled as `Int`.
The external pieces the scripts delegate to — the `tiktoken` token counter
(including its `len // 3` fallback) and the chat-completions endpoint —
are parameters of the model: `tc : List Char → Nat` gives the token count
of a prompt, and `resp : Nat → List Char` gives the raw content of the
`k`-th API response of the run.
-/

namespace Classify212

/-- The sentence separator `". "` used by `chunk_text` (`text.split('. ')`). -/
def dotSpace : List Char := ['.', ' ']

/-- Model of Python `text.split(". ")` on character lists: split at each
non-overlapping occurrence of `". "`, left to right.  `"".split(". ")`
is `[""]`, and a string with no separator splits into itself. -/
def splitDotSpace : List Char → List (List Char)
  | [] => [[]]
  | [c] => [[c]]
  | c :: c2 :: rest =>
    if c = '.' ∧ c2 = ' ' then
      [] :: splitDotSpace rest
    else
      match splitDotSpace (c2 :: rest) with
      | [] => [[c]]
      | h :: t => (c :: h) :: t

/-- Model of Python `sep.join(parts)`. -/
def joinSep (sep : List Char) : List (List Char) → List Char
  | [] => []
  | [x] => x
  | x :: y :: xs => x ++ sep ++ joinSep sep (y :: xs)

/-- One iteration of the `for sentence in sentences` loop of `chunk_text`
(`classify.py` lines 169-178).  The state is the pair
`(chunks, current_chunk)`. -/
def chunkStep (max_chars : Int) (acc : List (List Char) × List Char)
    (sentence : List Char) : List (List Char) × List Char :=
  let test_chunk := if acc.2 ≠ [] then acc.2 ++ dotSpace ++ sentence else sentence
  if (test_chunk.length : Int) ≤ max_chars then
    (acc.1, test_chunk)
  else
    (if acc.2 ≠ [] then acc.1 ++ [acc.2] else acc.1, sentence)

/-- `chunk_text(text, max_tokens)` from `classify.py` lines 156-184:
estimate the character budget as `max_tokens * 3`, return `[text]` when the
text fits, otherwise greedily pack the `". "`-separated sentences into
chunks, starting a new chunk whenever the current one would overflow. -/
def chunk_text (text : List Char) (max_tokens : Int) : List (List Char) :=
  let max_chars := max_tokens * 3
  if (text.length : Int) ≤ max_chars then
    [text]
  else
    let sentences := splitDotSpace text
    let r := sentences.foldl (chunkStep max_chars) ([], [])
    if r.2 ≠ [] then r.1 ++ [r.2] else r.1

/-- `sep ++ s₁ ++ sep ++ s₂ ++ ...`: the tail of a `". "`-join.  Used to
state the fold invariant of the chunking loop. -/
def sepFlat : List (List Char) → List Char
  | [] => []
  | s :: rest => dotSpace ++ s ++ sepFlat rest

/-- `get_majority_stance(stances)` from `classify.py` lines 186-193:
`"absent"` on the empty list, otherwise the stance whose occurrence count
is maximal, ties broken towards the stance encountered first
(`Counter` iterates keys in first-encounter order and
`most_common(1)` keeps the first key of maximal count). -/
def get_majority_stance (stances : List String) : String :=
  match stances with
  | [] => "absent"
  | h :: t =>
    (h :: t).foldl
      (fun best s =>
        if (h :: t).count s > (h :: t).count best then s else best) h

/-- Model of Python `s.strip()`: drop whitespace from both ends. -/
def stripChars (l : List Char) : List Char :=
  ((l.dropWhile Char.isWhitespace).reverse.dropWhile Char.isWhitespace).reverse

/-- Model of Python `s.lower()`. -/
def lowerChars (l : List Char) : List Char := l.map Char.toLower

/-- Model of the regex word class `\w` (ASCII reading): alphanumeric or
underscore. -/
def wordChar (c : Char) : Bool := c.isAlphanum || c = '_'

/-- A `\b` word boundary holds before the current position, where `pre` is
the character immediately preceding it (`none` at the start of the
string). -/
def boundaryOk (pre : Option Char) : Bool :=
  match pre with
  | none => true
  | some c => !wordChar c

/-- The word `w` matches at the current position of the answer, with `\b`
boundaries on both sides: `w` is a literal prefix of the remaining text
`l`, the preceding character (if any) is not a word character, and neither
is the character following the match. -/
def matchesWordAt (pre : Option Char) (l : List Char) (w : List Char) : Bool :=
  boundaryOk pre && w.isPrefixOf l &&
    (match l.drop w.length with
     | [] => true
     | c :: _ => !wordChar c)

/-- The alternation `(present|absent)` tried at one position: `present`
first, then `absent`, as `re` does. -/
def stanceAt (pre : Option Char) (l : List Char) : Option String :=
  if matchesWordAt pre l ("present".toList) then some "present"
  else if matchesWordAt pre l ("absent".toList) then some "absent"
  else none

/-- Model of `re.search(r"\b(present|absent)\b", answer)`: scan left to
right and return the first (leftmost) stance word matched with word
boundaries. -/
def findStance : Option Char → List Char → Option String
  | _, [] => none
  | pre, c :: rest =>
    match stanceAt pre (c :: rest) with
    | some s => some s
    | none => findStance (some c) rest

/-- The answer-parsing step of `main` (`classify.py` lines 377-383 /
408-414): search the normalized answer for a stance word, defaulting to
`"absent"` when the regex does not match. -/
def parse_stance (answer : List Char) : String :=
  match findStance none answer with
  | some s => s
  | none => "absent"

/-- The fixed part of the user prompt before the comment text
(`construct_full_prompt`, `classify.py` lines 196-198). -/
def userPromptPrefix : String := "\nComment:\n"

/-- The fixed part of the user prompt after the comment text
(`construct_full_prompt`, `classify.py` lines 199-206). -/
def userPromptSuffix : String := "\n\nBased on the above comment, determine whether it contains any reference to Strong Mayor Powers (enhanced mayoral authorities in Ontario municipalities). Your response must be exactly one of the following:\n\n1. \"present\" - The comment mentions Strong Mayor Powers, mayoral authorities, enhanced mayoral powers, or clearly discusses the concept.\n2. \"absent\" - The comment contains no reference to Strong Mayor Powers or related mayoral authority concepts.\n\nReturn exactly one word: \"present\" or \"absent\". Do not include any additional explanation or text in your response.\n"

/-- `construct_full_prompt(comment_text, system_prompt)` from
`classify.py` lines 195-207: the stripped system prompt, a newline, and
the stripped user prompt built around the comment text. -/
def construct_full_prompt (comment_text : List Char) (system_prompt : List Char) :
    List Char :=
  stripChars system_prompt ++ ['\n'] ++
    stripChars (userPromptPrefix.toList ++ comment_text ++ userPromptSuffix.toList)

/-- The system prompt literal of `main` (`classify.py` lines 236-260),
abbreviated to its first and last lines; only its length and token count
could ever matter to the claims under verification, and both are left
abstract through the token-counter parameter `tc`. -/
def system_prompt : List Char :=
  ("\nYou are analyzing public comments submitted to the Environmental Registry of Ontario (ERO) and other public consultation platforms. Your task is to determine whether each comment contains references to \"Strong Mayor Powers\" and, if present, explain how they are referenced.\n- Return exactly one word: \"present\" or \"absent\"\n- Do not include explanations in your response\n").toList

/-- One input item of the processing loop: a comment identifier together
with its raw text (`data` entries built at `classify.py` lines 280-316). -/
structure Entry where
  comment_id : String
  comment : List Char
deriving DecidableEq, Repr

/-- The observable state of one run of `main`: the running token total,
the result rows appended to the output CSV (identifier, label), and one
entry per chat-completions API request made, recording the identifier of
the item the request was made for. -/
structure RunState where
  totalTokens : Nat
  rows : List (String × String)
  calls : List String
deriving DecidableEq, Repr

/-- One iteration of the `for i, chunk in enumerate(chunks)` loop of
`main` (`classify.py` lines 364-387).  The state is the pair
`(chunk_stances, calls made so far)`: on a dry run the placeholder
`"(dry-run)"` is appended and no request goes out; otherwise one request
is made on behalf of `cid` and its normalized answer is parsed into a
stance. -/
def chunkCallStep (resp : Nat → List Char) (dry_run : Bool) (cid : String)
    (acc : List String × List String) (_chunk : List Char) :
    List String × List String :=
  if dry_run then
    (acc.1 ++ ["(dry-run)"], acc.2)
  else
    let answer := lowerChars (stripChars (resp acc.2.length))
    (acc.1 ++ [parse_stance answer], acc.2 ++ [cid])

/-- One iteration of the `for entry in data` loop of `main`
(`classify.py` lines 337-426).  `tc` abstracts `count_tokens` together
with its `len // 3` fallback; `resp k` is the raw content of the `k`-th
API response of the run (responses are consumed in request order, so the
index is the number of calls made so far).  An identifier already in
`processed_ids` is skipped outright; otherwise the item's token count is
added to the total, the item is classified in one request — or chunked
and classified chunk-by-chunk with a majority vote when its prompt
exceeds `max_tokens` — and, unless this is a dry run, one result row is
appended. -/
def processEntry (tc : List Char → Nat) (resp : Nat → List Char) (dry_run : Bool)
    (max_tokens : Int) (processed_ids : List String) (st : RunState)
    (entry : Entry) : RunState :=
  if processed_ids.contains entry.comment_id then st
  else
    let full_prompt := construct_full_prompt entry.comment system_prompt
    let prompt_tokens := tc full_prompt
    let total := st.totalTokens + prompt_tokens
    if (prompt_tokens : Int) > max_tokens then
      let chunks := chunk_text entry.comment (max_tokens - 1000)
      let inner := chunks.foldl (chunkCallStep resp dry_run entry.comment_id)
        ([], st.calls)
      if dry_run then
        { totalTokens := total, rows := st.rows, calls := inner.2 }
      else
        { totalTokens := total,
          rows := st.rows ++ [(entry.comment_id, get_majority_stance inner.1)],
          calls := inner.2 }
    else
      if dry_run then
        { totalTokens := total, rows := st.rows, calls := st.calls }
      else
        let answer := lowerChars (stripChars (resp st.calls.length))
        { totalTokens := total,
          rows := st.rows ++ [(entry.comment_id, parse_stance answer)],
          calls := st.calls ++ [entry.comment_id] }

/-- The processing loop of `main` over the whole input, starting from an
empty ledger delta: no tokens counted, no rows appended, no API calls
made. -/
def runMain (tc : List Char → Nat) (resp : Nat → List Char) (dry_run : Bool)
    (max_tokens : Int) (processed_ids : List String) (data : List Entry) :
    RunState :=
  data.foldl (processEntry tc resp dry_run max_tokens processed_ids) ⟨0, [], []⟩

/-- One already-classified comment as assembled by `validate.py` lines
33-41: source file name, comment identifier, comment text, and the
model's stance from the results CSV. -/
structure VItem where
  filename : String
  comment_id : String
  text : String
  stance : String
deriving DecidableEq, Repr

/-- Model of the `model_results` dict of `validate.py` lines 24-30: the
CSV rows keyed by `(filename, comment_id)`, later rows overwriting
earlier ones as repeated dict assignment does. -/
def lookupResult (model_results : List ((String × String) × String))
    (key : String × String) : Option String :=
  (model_results.reverse.find? (fun p => decide (p.1 = key))).map Prod.snd

/-- The inner loop of `validate.py` lines 36-41 for one JSON file
`fe = (name, id→text entries)`: keep the comments whose
`(filename, comment_id)` key has an entry in the model results, pairing
each with the model's stance. -/
def collectFile (model_results : List ((String × String) × String))
    (fe : String × List (String × String)) : List VItem :=
  fe.2.filterMap (fun ce =>
    match lookupResult model_results (fe.1, ce.1) with
    | some stance => some ⟨fe.1, ce.1, ce.2, stance⟩
    | none => none)

/-- The `comments` list of `validate.py` lines 33-41: the per-file
matched comments of every JSON file of the directory, in file order. -/
def buildComments (model_results : List ((String × String) × String))
    (files : List (String × List (String × String))) : List VItem :=
  files.foldl (fun acc fe => acc ++ collectFile model_results fe) []

/-- Model of the Python slice `l[:n]` for an `int` bound `n`: the first
`n` elements when `n ≥ 0`, and all but the last `-n` elements when
`n < 0`. -/
def pySlice (l : List α) (n : Int) : List α :=
  if 0 ≤ n then l.take n.toNat else l.take (l.length - (-n).toNat)

/-- The observable outcome of `validate.py`: the sampled comments, the
recorded `(item, user label)` responses, and the reported agreement
percentage (Python's float arithmetic modelled exactly over `ℚ`). -/
structure VResult where
  sampled : List VItem
  responses : List (VItem × String)
  agreement : ℚ
deriving DecidableEq, Repr

/-- The body of `validate.py` `main` after loading (lines 33-78): cap the
requested sample count at the number of matched comments, take that
slice of the shuffled comment list, record one user label per sampled
item (`user_input i` is the validated label the human settles on for the
`i`-th sampled item), and report `agree/total * 100` (or `0` when no
responses were collected).  The shuffle itself is nondeterministic, so
the shuffled list is a parameter; theorems restrict it to permutations
of the comment list. -/
def runValidate (num_samples : Int)
    (model_results : List ((String × String) × String))
    (files : List (String × List (String × String)))
    (shuffled : List VItem) (user_input : Nat → String) : VResult :=
  let comments := buildComments model_results files
  let n := min num_samples (comments.length : Int)
  let sampled := pySlice shuffled n
  let responses := sampled.enum.map (fun p => (p.2, user_input p.1))
  let total := responses.length
  let agree_count := (responses.filter (fun r => decide (r.1.stance = r.2))).length
  let pct : ℚ := if 0 < total then ((agree_count : ℚ) / (total : ℚ)) * 100 else 0
  ⟨sampled, responses, pct⟩

/-- Token counter used to instantiate witnesses: every prompt counts as
zero tokens. -/
def tcW : List Char → Nat := fun _ => 0

/-- Response oracle used to instantiate witnesses: the model always
answers `present`. -/
def respW : Nat → List Char := fun _ => "present".toList

/-- Two-item input used to instantiate witnesses, one identifier already
in the ledger (`"x"`) and one new (`"y"`). -/
def dataW : List Entry := [⟨"x", "one".toList⟩, ⟨"y", "two".toList⟩]

/-- Input with a duplicated identifier, exhibiting the double-append
behaviour of a single run. -/
def dataDup : List Entry := [⟨"a", "t".toList⟩, ⟨"a", "t".toList⟩]

/-- Model results used to instantiate the `validate.py` theorems. -/
def mrW : List ((String × String) × String) :=
  [(("f.json", "c1"), "for"), (("f.json", "c2"), "against")]

/-- Input directory used to instantiate the `validate.py` theorems: one
JSON file with two comments, both present in the model results. -/
def filesW : List (String × List (String × String)) :=
  [("f.json", [("c1", "t1"), ("c2", "t2")])]

/-- Human oracle used to instantiate the `validate.py` theorems: the
human always answers `for`. -/
def uW : Nat → String := fun _ => "for"

/-- `splitDotSpace` never returns the empty list of sentences. -/
theorem splitDotSpace_ne_nil : ∀ l : List Char, splitDotSpace l ≠ []
  | [] => by simp [splitDotSpace]
  | [c] => by simp [splitDotSpace]
  | c :: c2 :: rest => by
    unfold splitDotSpace
    split
    · simp
    · cases h : splitDotSpace (c2 :: rest) <;> simp

/-- `joinSep` on a cons with a nonempty tail unfolds to an append. -/
theorem joinSep_cons (sep x : List Char) (xs : List (List Char)) (h : xs ≠ []) :
    joinSep sep (x :: xs) = x ++ sep ++ joinSep sep xs := by
  cases xs with
  | nil => exact absurd rfl h
  | cons y ys => rfl

/-- Prepending a character to the first part of a join prepends it to the
joined string. -/
theorem joinSep_cons_cons (sep c : List Char) (h : List Char)
    (t : List (List Char)) :
    joinSep sep ((c ++ h) :: t) = c ++ joinSep sep (h :: t) := by
  cases t with
  | nil => rfl
  | cons y ys => simp [joinSep, List.append_assoc]

/-- Splitting at `". "` and joining the parts back with `". "` recovers
the original string. -/
theorem joinSep_splitDotSpace : ∀ l : List Char,
    joinSep dotSpace (splitDotSpace l) = l
  | [] => rfl
  | [c] => rfl
  | c :: c2 :: rest => by
    unfold splitDotSpace
    split
    · rename_i hcc
      obtain ⟨hc, hc2⟩ := hcc
      rw [joinSep_cons _ _ _ (splitDotSpace_ne_nil rest)]
      rw [joinSep_splitDotSpace rest]
      simp [dotSpace, hc, hc2]
    · cases h : splitDotSpace (c2 :: rest) with
      | nil => exact absurd h (splitDotSpace_ne_nil _)
      | cons hd tl =>
        have := joinSep_splitDotSpace (c2 :: rest)
        rw [h] at this
        calc joinSep dotSpace ((c :: hd) :: tl)
            = [c] ++ joinSep dotSpace (hd :: tl) := joinSep_cons_cons _ [c] hd tl
          _ = c :: (c2 :: rest) := by rw [this]; rfl

/-- Appending one more part to a join appends it (with a separator) to
the joined string. -/
theorem joinSep_concat (sep : List Char) (xs : List (List Char)) (y : List Char) :
    joinSep sep (xs ++ [y]) =
      if xs = [] then y else joinSep sep xs ++ sep ++ y := by
  induction xs with
  | nil => rfl
  | cons x xs ih =>
    rw [List.cons_append, joinSep_cons _ _ _ (by simp)]
    by_cases h : xs = []
    · subst h; rfl
    · rw [ih]
      simp [h, joinSep_cons _ _ _ h, List.append_assoc]

/-- A `". "`-join is the first part followed by the separator-prefixed
remaining parts. -/
theorem joinSep_eq_sepFlat (x : List Char) (xs : List (List Char)) :
    joinSep dotSpace (x :: xs) = x ++ sepFlat xs := by
  induction xs generalizing x with
  | nil => simp [joinSep, sepFlat]
  | cons y ys ih =>
    rw [joinSep_cons _ _ _ (by simp), ih y]
    simp [sepFlat, List.append_assoc]

/-- `chunkStep` when the current chunk is empty: whether or not the
sentence fits, it simply becomes the current chunk and nothing is
appended. -/
theorem chunkStep_eq_of_nil (mc : Int) (acc : List (List Char) × List Char)
    (s : List Char) (h2 : acc.2 = []) :
    chunkStep mc acc s = (acc.1, s) := by
  unfold chunkStep
  simp [h2]

/-- `chunkStep` when the current chunk is nonempty: extend it when the
test chunk fits, otherwise flush it and restart from the sentence. -/
theorem chunkStep_eq_of_ne (mc : Int) (acc : List (List Char) × List Char)
    (s : List Char) (h2 : acc.2 ≠ []) :
    chunkStep mc acc s =
      if ((acc.2 ++ dotSpace ++ s).length : Int) ≤ mc then
        (acc.1, acc.2 ++ dotSpace ++ s)
      else
        (acc.1 ++ [acc.2], s) := by
  unfold chunkStep
  simp [h2]

/-- From the initial `("", [])` state, the first sentence always becomes
the current chunk, whether or not it fits the budget. -/
theorem chunkStep_nil_nil (mc : Int) (s : List Char) :
    chunkStep mc ([], []) s = ([], s) :=
  chunkStep_eq_of_nil mc ([], []) s rfl

/-- Once the current chunk is nonempty, it stays nonempty as long as the
incoming sentences are nonempty. -/
theorem chunkStep_snd_ne (mc : Int) (acc : List (List Char) × List Char)
    (s : List Char) (h2 : acc.2 ≠ []) (hs : s ≠ []) :
    (chunkStep mc acc s).2 ≠ [] := by
  rw [chunkStep_eq_of_ne mc acc s h2]
  split
  · simp [h2]
  · exact hs

/-- One chunking step extends the join of `chunks ++ [current]` by
exactly `". " ++ sentence`, whichever branch is taken. -/
theorem chunkStep_join (mc : Int) (acc : List (List Char) × List Char)
    (s : List Char) (h2 : acc.2 ≠ []) :
    joinSep dotSpace ((chunkStep mc acc s).1 ++ [(chunkStep mc acc s).2]) =
      joinSep dotSpace (acc.1 ++ [acc.2]) ++ dotSpace ++ s := by
  rw [chunkStep_eq_of_ne mc acc s h2]
  split
  · rw [joinSep_concat, joinSep_concat]
    by_cases h1 : acc.1 = [] <;> simp [h1, List.append_assoc]
  · rw [joinSep_concat dotSpace (acc.1 ++ [acc.2]) s]
    simp

/-- Fold invariant of the chunking loop: starting from a nonempty current
chunk, after consuming the remaining (nonempty) sentences the current
chunk is still nonempty and the join of `chunks ++ [current]` has grown
by exactly the separator-prefixed remaining sentences. -/
theorem chunkLoop_join (mc : Int) :
    ∀ (rest : List (List Char)) (acc : List (List Char) × List Char),
      acc.2 ≠ [] → (∀ s ∈ rest, s ≠ []) →
      (rest.foldl (chunkStep mc) acc).2 ≠ [] ∧
      joinSep dotSpace
          ((rest.foldl (chunkStep mc) acc).1 ++ [(rest.foldl (chunkStep mc) acc).2]) =
        joinSep dotSpace (acc.1 ++ [acc.2]) ++ sepFlat rest := by
  intro rest
  induction rest with
  | nil =>
    intro acc h2 _
    exact ⟨h2, by simp [sepFlat]⟩
  | cons s rest ih =>
    intro acc h2 hall
    have hs : s ≠ [] := hall s (by simp)
    have h2' := chunkStep_snd_ne mc acc s h2 hs
    obtain ⟨hne, hjoin⟩ :=
      ih (chunkStep mc acc s) h2' (fun t ht => hall t (by simp [ht]))
    rw [List.foldl_cons]
    refine ⟨hne, ?_⟩
    rw [hjoin, chunkStep_join mc acc s h2]
    simp [sepFlat, List.append_assoc]

/-- Fold invariant of the chunking loop for the budget bound: every
accumulated chunk, and the current chunk when nonempty, either fits the
character budget or is a single sentence drawn from `S`. -/
theorem chunkLoop_bound (mc : Int) (S : List (List Char)) :
    ∀ (rest : List (List Char)) (acc : List (List Char) × List Char),
      (∀ c ∈ acc.1, (c.length : Int) ≤ mc ∨ c ∈ S) →
      (acc.2 = [] ∨ ((acc.2.length : Int) ≤ mc ∨ acc.2 ∈ S)) →
      (∀ s ∈ rest, s ∈ S) →
      (∀ c ∈ (rest.foldl (chunkStep mc) acc).1, (c.length : Int) ≤ mc ∨ c ∈ S) ∧
      ((rest.foldl (chunkStep mc) acc).2 = [] ∨
        (((rest.foldl (chunkStep mc) acc).2.length : Int) ≤ mc ∨
          (rest.foldl (chunkStep mc) acc).2 ∈ S)) := by
  intro rest
  induction rest with
  | nil =>
    intro acc h1 h2 _
    exact ⟨h1, h2⟩
  | cons s rest ih =>
    intro acc h1 h2 hall
    have hsS : s ∈ S := hall s (by simp)
    rw [List.foldl_cons]
    refine ih (chunkStep mc acc s) ?_ ?_ (fun t ht => hall t (by simp [ht]))
    · intro c hc
      by_cases h2e : acc.2 = []
      · rw [chunkStep_eq_of_nil mc acc s h2e] at hc
        exact h1 c hc
      · rw [chunkStep_eq_of_ne mc acc s h2e] at hc
        split at hc
        · exact h1 c hc
        · rcases List.mem_append.mp hc with hcl | hcr
          · exact h1 c hcl
          · have hca : c = acc.2 := by simpa using hcr
            subst hca
            rcases h2 with h2x | h2p
            · exact absurd h2x h2e
            · exact h2p
    · by_cases h2e : acc.2 = []
      · rw [chunkStep_eq_of_nil mc acc s h2e]
        exact Or.inr (Or.inr hsS)
      · rw [chunkStep_eq_of_ne mc acc s h2e]
        split
        · rename_i hfit
          exact Or.inr (Or.inl hfit)
        · exact Or.inr (Or.inr hsS)

/-- C4 (amended): for every text none of whose `". "`-separated sentences
is empty, and every token budget, joining the chunks of
`chunk_text(text, max_tokens)` back with `". "` yields exactly the
original text. -/
theorem chunk_text_roundtrip_of_no_empty_sentence (text : List Char)
    (max_tokens : Int) (h : [] ∉ splitDotSpace text) :
    joinSep dotSpace (chunk_text text max_tokens) = text := by
  by_cases hlen : (text.length : Int) ≤ max_tokens * 3
  · simp only [chunk_text, if_pos hlen]
    rfl
  · simp only [chunk_text, if_neg hlen]
    rcases hsp : splitDotSpace text with _ | ⟨s0, rest⟩
    · exact absurd hsp (splitDotSpace_ne_nil text)
    · have hs0 : s0 ≠ [] := by
        intro e
        exact h (by rw [hsp, ← e]; exact List.mem_cons_self s0 rest)
      have hrest : ∀ s ∈ rest, s ≠ [] := by
        intro s hs e
        exact h (by rw [hsp]; exact List.mem_cons_of_mem s0 (e ▸ hs))
      rw [List.foldl_cons, chunkStep_nil_nil]
      obtain ⟨hne, hjoin⟩ :=
        chunkLoop_join (max_tokens * 3) rest ([], s0) hs0 hrest
      rw [if_pos hne, hjoin]
      simp only [List.nil_append]
      have h1 : joinSep dotSpace [s0] = s0 := rfl
      rw [h1, ← joinSep_eq_sepFlat s0 rest, ← hsp, joinSep_splitDotSpace]

/-- C4 (counterexample): at `text = "ab. . c"` and `max_tokens = 1` the
text contains an empty sentence, the chunker drops the separator in
front of `"c"`, and rejoining the chunks does not recover the text. -/
theorem chunk_text_roundtrip_counterexample :
    joinSep dotSpace (chunk_text ("ab. . c".toList) 1) ≠ "ab. . c".toList ∧
    [] ∈ splitDotSpace ("ab. . c".toList) := by
  decide

/-- C4 (witness): a concrete chunked text with no empty sentence rejoins
to itself. -/
theorem chunk_text_roundtrip_witness :
    joinSep dotSpace (chunk_text ("one two. three four. five six".toList) 4) =
      "one two. three four. five six".toList :=
  chunk_text_roundtrip_of_no_empty_sentence
    ("one two. three four. five six".toList) 4 (by decide)

/-- C5 (amended): every chunk returned by `chunk_text(text, max_tokens)`
either fits the `max_tokens * 3` character estimate of the budget or is
a single (oversized) `". "`-separated sentence of the text. -/
theorem chunk_text_budget_or_single_sentence (text : List Char)
    (max_tokens : Int) :
    ∀ c ∈ chunk_text text max_tokens,
      (c.length : Int) ≤ max_tokens * 3 ∨ c ∈ splitDotSpace text := by
  intro c hc
  by_cases hlen : (text.length : Int) ≤ max_tokens * 3
  · simp only [chunk_text, if_pos hlen] at hc
    simp only [List.mem_singleton] at hc
    subst hc
    exact Or.inl hlen
  · simp only [chunk_text, if_neg hlen] at hc
    obtain ⟨h1, h2⟩ :=
      chunkLoop_bound (max_tokens * 3) (splitDotSpace text) (splitDotSpace text)
        ([], []) (by simp) (Or.inl rfl) (fun s hs => hs)
    split at hc
    · rcases List.mem_append.mp hc with hcl | hcr
      · exact h1 c hcl
      · have hc2 : c = (List.foldl (chunkStep (max_tokens * 3)) ([], [])
            (splitDotSpace text)).2 := by simpa using hcr
        subst hc2
        rcases h2 with h2e | h2p
        · rename_i hr; exact absurd h2e hr
        · exact h2p
    · exact h1 c hc

/-- C5 (counterexample): at `text = "abcd"` and `max_tokens = 1` the text
has no sentence separator, so the single returned chunk is the whole
text and exceeds the `max_tokens * 3` character budget. -/
theorem chunk_text_budget_counterexample :
    chunk_text ("abcd".toList) 1 = ["abcd".toList] ∧
    ¬ ((("abcd".toList).length : Int) ≤ 1 * 3) := by
  decide

/-- C5 (witness): the oversized single-sentence chunk of the
counterexample indeed falls in the `single sentence` disjunct. -/
theorem chunk_text_budget_witness :
    ((("abcd".toList).length : Int) ≤ 1 * 3) ∨
      "abcd".toList ∈ splitDotSpace ("abcd".toList) :=
  chunk_text_budget_or_single_sentence ("abcd".toList) 1 ("abcd".toList)
    (by decide)

/-- C10: a text whose character length is within the `max_tokens * 3`
estimate is returned unchanged as a single chunk. -/
theorem chunk_text_small_identity (text : List Char) (max_tokens : Int)
    (h : (text.length : Int) ≤ max_tokens * 3) :
    chunk_text text max_tokens = [text] := by
  simp only [chunk_text, if_pos h]

/-- C10 (witness): a two-character text within a budget of 5 tokens is
returned as the single chunk `[text]`. -/
theorem chunk_text_small_identity_witness :
    chunk_text ("hi".toList) 5 = ["hi".toList] :=
  chunk_text_small_identity ("hi".toList) 5 (by decide)

/-- Fold invariant of the strict-argmax fold of `get_majority_stance`:
the fold result is the start value or an element of the list, its count
is at least the start value's, and at least every listed element's. -/
theorem majority_foldl (cnt : String → Nat) :
    ∀ (t : List String) (b : String),
      (List.foldl (fun best s => if cnt s > cnt best then s else best) b t = b ∨
        List.foldl (fun best s => if cnt s > cnt best then s else best) b t ∈ t) ∧
      cnt b ≤ cnt (List.foldl (fun best s => if cnt s > cnt best then s else best) b t) ∧
      ∀ s ∈ t, cnt s ≤ cnt (List.foldl (fun best s => if cnt s > cnt best then s else best) b t) := by
  intro t
  induction t with
  | nil =>
    intro b
    exact ⟨Or.inl rfl, le_refl _, by simp⟩
  | cons s t ih =>
    intro b
    obtain ⟨hmem, hb, hall⟩ := ih (if cnt s > cnt b then s else b)
    rw [List.foldl_cons]
    have hstart : cnt b ≤ cnt (if cnt s > cnt b then s else b) := by
      split
      · omega
      · exact le_refl _
    have hsle : cnt s ≤ cnt (if cnt s > cnt b then s else b) := by
      split
      · exact le_refl _
      · omega
    refine ⟨?_, le_trans hstart hb, ?_⟩
    · rcases hmem with he | hm
      · rw [he]
        split
        · exact Or.inr (List.mem_cons_self s t)
        · exact Or.inl rfl
      · exact Or.inr (List.mem_cons_of_mem s hm)
    · intro x hx
      rcases List.mem_cons.mp hx with hxs | hxt
      · subst hxs
        exact le_trans hsle hb
      · exact hall x hxt

/-- On a nonempty list, the majority stance is an element of the list. -/
theorem get_majority_stance_mem (l : List String) (h : l ≠ []) :
    get_majority_stance l ∈ l := by
  match l with
  | h0 :: t =>
    obtain ⟨hmem, _, _⟩ :=
      majority_foldl (fun s => (h0 :: t).count s) (h0 :: t) h0
    simp only [get_majority_stance]
    rcases hmem with he | hm
    · rw [he]; exact List.mem_cons_self h0 t
    · exact hm

/-- On a nonempty list, no stance occurs more often than the majority
stance. -/
theorem get_majority_stance_count (l : List String) (h : l ≠ []) :
    ∀ s ∈ l, l.count s ≤ l.count (get_majority_stance l) := by
  match l with
  | h0 :: t =>
    obtain ⟨_, _, hall⟩ :=
      majority_foldl (fun s => (h0 :: t).count s) (h0 :: t) h0
    simp only [get_majority_stance]
    exact hall

/-- The majority stance is drawn from the list, or is the `"absent"`
default of the empty list. -/
theorem get_majority_stance_mem_or_absent (l : List String) :
    get_majority_stance l ∈ l ∨ get_majority_stance l = "absent" := by
  cases l with
  | nil => exact Or.inr rfl
  | cons a t => exact Or.inl (get_majority_stance_mem (a :: t) (by simp))

/-- C3: on a nonempty list of chunk labels, `get_majority_stance` returns
a label of the list whose occurrence count is maximal. -/
theorem get_majority_stance_plurality (stances : List String)
    (h : stances ≠ []) :
    get_majority_stance stances ∈ stances ∧
    ∀ s ∈ stances,
      stances.count s ≤ stances.count (get_majority_stance stances) :=
  ⟨get_majority_stance_mem stances h, get_majority_stance_count stances h⟩

/-- C3 (witness): on `["present", "absent", "present"]` the majority
stance is a member and beats the count of `"absent"`. -/
theorem get_majority_stance_plurality_witness :
    get_majority_stance ["present", "absent", "present"] ∈
      (["present", "absent", "present"] : List String) ∧
    (["present", "absent", "present"] : List String).count "absent" ≤
      (["present", "absent", "present"] : List String).count
        (get_majority_stance ["present", "absent", "present"]) :=
  ⟨(get_majority_stance_plurality ["present", "absent", "present"] (by decide)).1,
   (get_majority_stance_plurality ["present", "absent", "present"] (by decide)).2
     "absent" (by decide)⟩

/-- C9: `get_majority_stance` on the empty list of labels returns
`"absent"` rather than failing. -/
theorem get_majority_stance_empty : get_majority_stance [] = "absent" := rfl

/-- One alternation attempt yields nothing or one of the two stance
words. -/
theorem stanceAt_enum (pre : Option Char) (l : List Char) :
    stanceAt pre l = none ∨ stanceAt pre l = some "present" ∨
      stanceAt pre l = some "absent" := by
  unfold stanceAt
  split
  · exact Or.inr (Or.inl rfl)
  · split
    · exact Or.inr (Or.inr rfl)
    · exact Or.inl rfl

/-- The regex search yields nothing or one of the two stance words. -/
theorem findStance_enum : ∀ (l : List Char) (pre : Option Char),
    findStance pre l = none ∨ findStance pre l = some "present" ∨
      findStance pre l = some "absent" := by
  intro l
  induction l with
  | nil => intro pre; exact Or.inl rfl
  | cons c rest ih =>
    intro pre
    simp only [findStance]
    rcases stanceAt_enum pre (c :: rest) with h | h | h <;> rw [h]
    · exact ih (some c)
    · exact Or.inr (Or.inl rfl)
    · exact Or.inr (Or.inr rfl)

/-- The parsed label is always one of the two enum values, whatever the
model answered. -/
theorem parse_stance_enum (answer : List Char) :
    parse_stance answer = "present" ∨ parse_stance answer = "absent" := by
  unfold parse_stance
  rcases findStance_enum answer none with h | h | h <;> rw [h]
  · exact Or.inr rfl
  · exact Or.inl rfl
  · exact Or.inr rfl

/-- A word matched at a position is in particular a contiguous substring
of the remaining text. -/
theorem matchesWordAt_isInfix (pre : Option Char) (l w : List Char)
    (h : matchesWordAt pre l w = true) : w <:+: l := by
  unfold matchesWordAt at h
  simp only [Bool.and_eq_true] at h
  exact (List.isPrefixOf_iff_prefix.mp h.1.2).isInfix

/-- A stance word found by one alternation attempt occurs as a substring
of the remaining text. -/
theorem stanceAt_isInfix (pre : Option Char) (l : List Char) (s : String)
    (h : stanceAt pre l = some s) : s.toList <:+: l := by
  unfold stanceAt at h
  split at h
  · rename_i hm
    have hs : s = "present" := by injection h with h'; exact h'.symm
    subst hs
    exact matchesWordAt_isInfix pre l _ hm
  · split at h
    · rename_i hm
      have hs : s = "absent" := by injection h with h'; exact h'.symm
      subst hs
      exact matchesWordAt_isInfix pre l _ hm
    · exact absurd h (by simp)

/-- A stance word found by the regex search occurs as a substring of the
searched answer. -/
theorem findStance_isInfix : ∀ (l : List Char) (pre : Option Char) (s : String),
    findStance pre l = some s → s.toList <:+: l := by
  intro l
  induction l with
  | nil => intro pre s h; exact absurd h (by simp [findStance])
  | cons c rest ih =>
    intro pre s h
    simp only [findStance] at h
    rcases he : stanceAt pre (c :: rest) with _ | s'
    · rw [he] at h
      exact List.infix_cons (ih (some c) s h)
    · rw [he] at h
      have h' : some s' = some s := h
      have hs : s' = s := by injection h'
      subst hs
      exact stanceAt_isInfix pre (c :: rest) s' he

/-- An answer in which neither stance word occurs as a substring parses
to the `"absent"` default. -/
theorem parse_stance_absent_of_not_occurs (answer : List Char)
    (h1 : ¬ "present".toList <:+: answer) (h2 : ¬ "absent".toList <:+: answer) :
    parse_stance answer = "absent" := by
  unfold parse_stance
  rcases he : findStance none answer with _ | s
  · rfl
  · rcases findStance_enum answer none with h | h | h <;> rw [he] at h
    · cases h
    · have hs : s = "present" := by injection h
      subst hs
      exact absurd (findStance_isInfix answer none _ he) h1
    · have hs : s = "absent" := by injection h
      subst hs
      exact absurd (findStance_isInfix answer none _ he) h2

/-- `chunkCallStep` on a live (non-dry) run: record the parsed stance of
the next response and one more call on behalf of `cid`. -/
theorem chunkCallStep_false (resp : Nat → List Char) (cid : String)
    (acc : List String × List String) (chunk : List Char) :
    chunkCallStep resp false cid acc chunk =
      (acc.1 ++ [parse_stance (lowerChars (stripChars (resp acc.2.length)))],
        acc.2 ++ [cid]) := rfl

/-- `chunkCallStep` on a dry run: record the placeholder, make no call. -/
theorem chunkCallStep_true (resp : Nat → List Char) (cid : String)
    (acc : List String × List String) (chunk : List Char) :
    chunkCallStep resp true cid acc chunk = (acc.1 ++ ["(dry-run)"], acc.2) := rfl

/-- Every call recorded by the chunk loop of a live run was already
recorded or was made on behalf of `cid`. -/
theorem innerFold_calls_mem (resp : Nat → List Char) (cid : String) :
    ∀ (chunks : List (List Char)) (acc : List String × List String) (c : String),
      c ∈ (chunks.foldl (chunkCallStep resp false cid) acc).2 →
        c ∈ acc.2 ∨ c = cid := by
  intro chunks
  induction chunks with
  | nil => intro acc c h; exact Or.inl h
  | cons ch chunks ih =>
    intro acc c h
    rw [List.foldl_cons, chunkCallStep_false] at h
    rcases ih _ c h with h' | h'
    · rcases List.mem_append.mp h' with h'' | h''
      · exact Or.inl h''
      · exact Or.inr (by simpa using h'')
    · exact Or.inr h'

/-- Every stance accumulated by the chunk loop of a live run was already
accumulated or is one of the two enum values. -/
theorem innerFold_stances_mem (resp : Nat → List Char) (cid : String) :
    ∀ (chunks : List (List Char)) (acc : List String × List String) (s : String),
      s ∈ (chunks.foldl (chunkCallStep resp false cid) acc).1 →
        s ∈ acc.1 ∨ s = "present" ∨ s = "absent" := by
  intro chunks
  induction chunks with
  | nil => intro acc s h; exact Or.inl h
  | cons ch chunks ih =>
    intro acc s h
    rw [List.foldl_cons, chunkCallStep_false] at h
    rcases ih _ s h with h' | h'
    · rcases List.mem_append.mp h' with h'' | h''
      · exact Or.inl h''
      · have hs : s = parse_stance (lowerChars (stripChars (resp acc.2.length))) := by
          simpa using h''
        exact Or.inr (hs ▸ parse_stance_enum _)
    · exact Or.inr h'

/-- The chunk loop of a dry run makes no API calls. -/
theorem innerFold_dry (resp : Nat → List Char) (cid : String) :
    ∀ (chunks : List (List Char)) (acc : List String × List String),
      (chunks.foldl (chunkCallStep resp true cid) acc).2 = acc.2 := by
  intro chunks
  induction chunks with
  | nil => intro acc; rfl
  | cons ch chunks ih =>
    intro acc
    rw [List.foldl_cons, chunkCallStep_true]
    exact ih _

/-- An entry whose identifier is already in the ledger leaves the run
state untouched: no token counted, no call, no row. -/
theorem processEntry_skip (tc : List Char → Nat) (resp : Nat → List Char)
    (dry_run : Bool) (mt : Int) (pids : List String) (st : RunState) (e : Entry)
    (hskip : pids.contains e.comment_id = true) :
    processEntry tc resp dry_run mt pids st e = st := by
  unfold processEntry
  rw [if_pos hskip]

/-- A live (non-dry) step on a fresh identifier appends exactly one row
carrying that identifier, labelled with one of the two enum values. -/
theorem processEntry_false_rows (tc : List Char → Nat) (resp : Nat → List Char)
    (mt : Int) (pids : List String) (st : RunState) (e : Entry)
    (hskip : pids.contains e.comment_id = false) :
    ∃ lbl, (processEntry tc resp false mt pids st e).rows =
        st.rows ++ [(e.comment_id, lbl)] ∧
      (lbl = "present" ∨ lbl = "absent") := by
  unfold processEntry
  simp only [hskip, Bool.false_eq_true, if_false]
  split
  · refine ⟨_, rfl, ?_⟩
    rcases get_majority_stance_mem_or_absent
        ((chunk_text e.comment (mt - 1000)).foldl
          (chunkCallStep resp false e.comment_id) ([], st.calls)).1 with hm | ha
    · rcases innerFold_stances_mem resp e.comment_id _ _ _ hm with h0 | h
      · exact absurd h0 (List.not_mem_nil _)
      · exact h
    · exact Or.inr ha
  · exact ⟨_, rfl, parse_stance_enum _⟩

/-- Every call made by a live step on a fresh identifier is made on
behalf of that identifier. -/
theorem processEntry_false_calls (tc : List Char → Nat) (resp : Nat → List Char)
    (mt : Int) (pids : List String) (st : RunState) (e : Entry)
    (hskip : pids.contains e.comment_id = false) :
    ∀ c ∈ (processEntry tc resp false mt pids st e).calls,
      c ∈ st.calls ∨ c = e.comment_id := by
  intro c hc
  unfold processEntry at hc
  simp only [hskip, Bool.false_eq_true, if_false] at hc
  split at hc
  · exact innerFold_calls_mem resp e.comment_id _ _ c hc
  · rcases List.mem_append.mp hc with h | h
    · exact Or.inl h
    · exact Or.inr (by simpa using h)

/-- Every step adds the token count of the item's full prompt to the
running total — zero when the item is skipped — on dry and live runs
alike. -/
theorem processEntry_totalTokens (tc : List Char → Nat) (resp : Nat → List Char)
    (dry_run : Bool) (mt : Int) (pids : List String) (st : RunState) (e : Entry) :
    (processEntry tc resp dry_run mt pids st e).totalTokens =
      st.totalTokens +
        (if pids.contains e.comment_id then 0
         else tc (construct_full_prompt e.comment system_prompt)) := by
  unfold processEntry
  by_cases hskip : pids.contains e.comment_id = true
  · rw [if_pos hskip, if_pos hskip]
    exact (Nat.add_zero _).symm
  · rw [if_neg hskip, if_neg hskip]
    dsimp only
    split
    · split <;> rfl
    · split <;> rfl

/-- A dry-run step appends no row and makes no call, whatever the
identifier. -/
theorem processEntry_dry (tc : List Char → Nat) (resp : Nat → List Char)
    (mt : Int) (pids : List String) (st : RunState) (e : Entry) :
    (processEntry tc resp true mt pids st e).rows = st.rows ∧
    (processEntry tc resp true mt pids st e).calls = st.calls := by
  by_cases hskip : pids.contains e.comment_id = true
  · rw [processEntry_skip tc resp true mt pids st e hskip]
    exact ⟨rfl, rfl⟩
  · unfold processEntry
    rw [if_neg hskip]
    dsimp only
    split
    · exact ⟨rfl, innerFold_dry resp e.comment_id _ _⟩
    · exact ⟨rfl, rfl⟩

/-- The identifiers of the rows appended by a live run are exactly the
identifiers of the input items that are not in the ledger, in input
order, one row per (non-skipped) input occurrence. -/
theorem runLoop_rows_fst (tc : List Char → Nat) (resp : Nat → List Char)
    (mt : Int) (pids : List String) :
    ∀ (data : List Entry) (st : RunState),
      (data.foldl (processEntry tc resp false mt pids) st).rows.map Prod.fst =
        st.rows.map Prod.fst ++
          (data.filter (fun e => !(pids.contains e.comment_id))).map
            Entry.comment_id := by
  intro data
  induction data with
  | nil => intro st; simp
  | cons e data ih =>
    intro st
    rw [List.foldl_cons, ih]
    by_cases hskip : pids.contains e.comment_id
    · have hmem : e.comment_id ∈ pids := by simpa using hskip
      rw [processEntry_skip tc resp false mt pids st e hskip]
      simp [List.filter_cons, hskip, hmem]
    · have hskip' : pids.contains e.comment_id = false := by simpa using hskip
      have hmem : e.comment_id ∉ pids := by simpa using hskip'
      obtain ⟨lbl, hrows, _⟩ :=
        processEntry_false_rows tc resp mt pids st e hskip'
      rw [hrows]
      simp [List.filter_cons, hskip', hmem, List.append_assoc]

/-- Every row present after a live run was present before it or carries
one of the two enum labels. -/
theorem runLoop_rows_mem (tc : List Char → Nat) (resp : Nat → List Char)
    (mt : Int) (pids : List String) :
    ∀ (data : List Entry) (st : RunState) (r : String × String),
      r ∈ (data.foldl (processEntry tc resp false mt pids) st).rows →
        r ∈ st.rows ∨ r.2 = "present" ∨ r.2 = "absent" := by
  intro data
  induction data with
  | nil => intro st r h; exact Or.inl h
  | cons e data ih =>
    intro st r h
    rw [List.foldl_cons] at h
    by_cases hskip : pids.contains e.comment_id
    · rw [processEntry_skip tc resp false mt pids st e hskip] at h
      exact ih st r h
    · have hskip' : pids.contains e.comment_id = false := by simpa using hskip
      obtain ⟨lbl, hrows, hlbl⟩ :=
        processEntry_false_rows tc resp mt pids st e hskip'
      rcases ih _ r h with h' | h'
      · rw [hrows] at h'
        rcases List.mem_append.mp h' with h'' | h''
        · exact Or.inl h''
        · have hr : r = (e.comment_id, lbl) := by simpa using h''
          exact Or.inr (by rw [hr]; exact hlbl)
      · exact Or.inr h'

/-- Every call made by a live run is made on behalf of an input item
whose identifier is not in the ledger. -/
theorem runLoop_calls_mem (tc : List Char → Nat) (resp : Nat → List Char)
    (mt : Int) (pids : List String) :
    ∀ (data : List Entry) (st : RunState) (c : String),
      c ∈ (data.foldl (processEntry tc resp false mt pids) st).calls →
        c ∈ st.calls ∨
          ∃ e ∈ data, pids.contains e.comment_id = false ∧ c = e.comment_id := by
  intro data
  induction data with
  | nil => intro st c h; exact Or.inl h
  | cons e data ih =>
    intro st c h
    rw [List.foldl_cons] at h
    by_cases hskip : pids.contains e.comment_id
    · rw [processEntry_skip tc resp false mt pids st e hskip] at h
      rcases ih st c h with h' | ⟨e', he', hf, hc⟩
      · exact Or.inl h'
      · exact Or.inr ⟨e', List.mem_cons_of_mem e he', hf, hc⟩
    · have hskip' : pids.contains e.comment_id = false := by simpa using hskip
      rcases ih _ c h with h' | ⟨e', he', hf, hc⟩
      · rcases processEntry_false_calls tc resp mt pids st e hskip' c h' with h'' | h''
        · exact Or.inl h''
        · exact Or.inr ⟨e, List.mem_cons_self e data, hskip', h''⟩
      · exact Or.inr ⟨e', List.mem_cons_of_mem e he', hf, hc⟩

/-- The token total of a run is the sum of the token counts of the full
prompts of the non-skipped items, on dry and live runs alike. -/
theorem runLoop_tokens (tc : List Char → Nat) (resp : Nat → List Char)
    (dry_run : Bool) (mt : Int) (pids : List String) :
    ∀ (data : List Entry) (st : RunState),
      (data.foldl (processEntry tc resp dry_run mt pids) st).totalTokens =
        st.totalTokens +
          ((data.filter (fun e => !(pids.contains e.comment_id))).map
            (fun e => tc (construct_full_prompt e.comment system_prompt))).sum := by
  intro data
  induction data with
  | nil => intro st; simp
  | cons e data ih =>
    intro st
    rw [List.foldl_cons, ih, processEntry_totalTokens]
    by_cases hskip : pids.contains e.comment_id
    · have hmem : e.comment_id ∈ pids := by simpa using hskip
      simp [List.filter_cons, hskip, hmem]
    · have hskip' : pids.contains e.comment_id = false := by simpa using hskip
      have hmem : e.comment_id ∉ pids := by simpa using hskip'
      simp [List.filter_cons, hskip', hmem]
      omega

/-- A dry run appends no rows and makes no calls. -/
theorem runLoop_dry (tc : List Char → Nat) (resp : Nat → List Char)
    (mt : Int) (pids : List String) :
    ∀ (data : List Entry) (st : RunState),
      (data.foldl (processEntry tc resp true mt pids) st).rows = st.rows ∧
      (data.foldl (processEntry tc resp true mt pids) st).calls = st.calls := by
  intro data
  induction data with
  | nil => intro st; exact ⟨rfl, rfl⟩
  | cons e data ih =>
    intro st
    rw [List.foldl_cons]
    obtain ⟨hr, hc⟩ := processEntry_dry tc resp mt pids st e
    obtain ⟨hr', hc'⟩ := ih (processEntry tc resp true mt pids st e)
    exact ⟨hr'.trans hr, hc'.trans hc⟩

/-- C1: on a live resumed run, every input item whose identifier is in
the loaded ledger is skipped — no API request is made for it and no row
with its identifier is appended — while the appended rows are exactly
one row per input item whose identifier is not in the ledger, in input
order. -/
theorem main_resume_skips_processed (tc : List Char → Nat)
    (resp : Nat → List Char) (mt : Int) (pids : List String)
    (data : List Entry) :
    (∀ id ∈ pids,
        id ∉ (runMain tc resp false mt pids data).calls ∧
        ∀ r ∈ (runMain tc resp false mt pids data).rows, r.1 ≠ id) ∧
    (runMain tc resp false mt pids data).rows.map Prod.fst =
      (data.filter (fun e => !(pids.contains e.comment_id))).map
        Entry.comment_id := by
  have hrows : (runMain tc resp false mt pids data).rows.map Prod.fst =
      (data.filter (fun e => !(pids.contains e.comment_id))).map
        Entry.comment_id := by
    unfold runMain
    rw [runLoop_rows_fst tc resp mt pids data ⟨0, [], []⟩]
    rfl
  refine ⟨?_, hrows⟩
  intro id hid
  constructor
  · intro hc
    unfold runMain at hc
    rcases runLoop_calls_mem tc resp mt pids data ⟨0, [], []⟩ id hc with
      h0 | ⟨e, _, hf, he⟩
    · exact absurd h0 (List.not_mem_nil id)
    · subst he
      exact (by simpa using hf : e.comment_id ∉ pids) hid
  · intro r hr hre
    have h1 : r.1 ∈ (runMain tc resp false mt pids data).rows.map Prod.fst :=
      List.mem_map_of_mem Prod.fst hr
    rw [hrows] at h1
    rcases List.mem_map.mp h1 with ⟨e, hef, heq⟩
    have hf : (pids.contains e.comment_id) = false := by
      simpa using (List.mem_filter.mp hef).2
    have : e.comment_id ∉ pids := by simpa using hf
    exact this (by rw [heq, hre]; exact hid)

/-- C1 (witness): with ledger `["x"]` and input `[x, y]`, no call is made
on behalf of `"x"` and the appended rows are exactly one row for `"y"`. -/
theorem main_resume_skips_processed_witness :
    "x" ∉ (runMain tcW respW false 10 ["x"] dataW).calls ∧
    (runMain tcW respW false 10 ["x"] dataW).rows.map Prod.fst = ["y"] :=
  ⟨((main_resume_skips_processed tcW respW 10 ["x"] dataW).1 "x"
      (by decide)).1,
   ((main_resume_skips_processed tcW respW 10 ["x"] dataW).2).trans (by decide)⟩

/-- C2: a dry run makes no API call, appends no result row, and its token
total is the sum of the full-prompt token counts of the not-yet-processed
items. -/
theorem main_dry_run_estimates_only (tc : List Char → Nat)
    (resp : Nat → List Char) (mt : Int) (pids : List String)
    (data : List Entry) :
    (runMain tc resp true mt pids data).calls = [] ∧
    (runMain tc resp true mt pids data).rows = [] ∧
    (runMain tc resp true mt pids data).totalTokens =
      ((data.filter (fun e => !(pids.contains e.comment_id))).map
        (fun e => tc (construct_full_prompt e.comment system_prompt))).sum := by
  unfold runMain
  obtain ⟨hr, hc⟩ := runLoop_dry tc resp mt pids data ⟨0, [], []⟩
  refine ⟨hc, hr, ?_⟩
  rw [runLoop_tokens tc resp true mt pids data ⟨0, [], []⟩]
  simp

/-- C6: every label in a row appended by a live run is a member of the
fixed enum `{"present", "absent"}`; and an answer in which neither word
occurs parses to `"absent"`, never to any other string. -/
theorem main_rows_label_enum (tc : List Char → Nat) (resp : Nat → List Char)
    (mt : Int) (pids : List String) (data : List Entry) :
    (∀ r ∈ (runMain tc resp false mt pids data).rows,
        r.2 = "present" ∨ r.2 = "absent") ∧
    (∀ answer : List Char, ¬ "present".toList <:+: answer →
      ¬ "absent".toList <:+: answer → parse_stance answer = "absent") := by
  constructor
  · intro r hr
    unfold runMain at hr
    rcases runLoop_rows_mem tc resp mt pids data ⟨0, [], []⟩ r hr with h0 | h
    · exact absurd h0 (List.not_mem_nil r)
    · exact h
  · exact parse_stance_absent_of_not_occurs

/-- C6 (witness): the row appended for `"y"` in the witness run carries
an enum label, and a concrete answer without either word parses to
`"absent"`. -/
theorem main_rows_label_enum_witness :
    ((("y", "present") : String × String).2 = "present" ∨
      (("y", "present") : String × String).2 = "absent") ∧
    parse_stance ("no stance here".toList) = "absent" :=
  ⟨(main_rows_label_enum tcW respW 10 ["x"] dataW).1 ("y", "present")
      (by decide),
   (main_rows_label_enum tcW respW 10 ["x"] dataW).2 "no stance here".toList
      (by decide) (by decide)⟩

/-- C7 (counterexample): in a single live run whose input repeats the
identifier `"a"` (absent from the ledger), two rows with identifier
`"a"` are appended — `processed_ids` is loaded once and never updated
during the loop. -/
theorem main_duplicate_ids_two_rows :
    (runMain tcW respW false 10 [] dataDup).rows.map Prod.fst = ["a", "a"] ∧
    ¬ ((runMain tcW respW false 10 [] dataDup).rows.map Prod.fst).Nodup := by
  constructor
  · decide
  · decide

/-- C7 (amended): when the identifiers of the run's input items are
pairwise distinct, a single run appends at most one row per identifier;
with duplicated input identifiers one row is appended per non-skipped
occurrence. -/
theorem main_rows_unique_of_nodup_input (tc : List Char → Nat)
    (resp : Nat → List Char) (dry_run : Bool) (mt : Int) (pids : List String)
    (data : List Entry) (h : (data.map Entry.comment_id).Nodup) :
    ((runMain tc resp dry_run mt pids data).rows.map Prod.fst).Nodup := by
  cases dry_run with
  | false =>
    unfold runMain
    rw [runLoop_rows_fst tc resp mt pids data ⟨0, [], []⟩]
    have hsub : List.Sublist
        ((data.filter (fun e => !(pids.contains e.comment_id))).map
          Entry.comment_id)
        (data.map Entry.comment_id) :=
      (List.filter_sublist data).map Entry.comment_id
    simpa using h.sublist hsub
  | true =>
    unfold runMain
    rw [(runLoop_dry tc resp mt pids data ⟨0, [], []⟩).1]
    exact List.nodup_nil

/-- C7 (witness): the witness run has distinct input identifiers and its
appended rows carry distinct identifiers. -/
theorem main_rows_unique_witness :
    ((runMain tcW respW false 10 ["x"] dataW).rows.map Prod.fst).Nodup :=
  main_rows_unique_of_nodup_input tcW respW false 10 ["x"] dataW (by decide)

/-- Every item collected from one file carries that file's name, comes
from that file's entries, and carries the stance the model results hold
for its key. -/
theorem collectFile_mem (mr : List ((String × String) × String))
    (fe : String × List (String × String)) (it : VItem)
    (h : it ∈ collectFile mr fe) :
    it.filename = fe.1 ∧ (it.comment_id, it.text) ∈ fe.2 ∧
      lookupResult mr (fe.1, it.comment_id) = some it.stance := by
  unfold collectFile at h
  rcases List.mem_filterMap.mp h with ⟨ce, hce, hg⟩
  rcases hl : lookupResult mr (fe.1, ce.1) with _ | st
  · rw [hl] at hg
    cases hg
  · rw [hl] at hg
    have hg' : some (⟨fe.1, ce.1, ce.2, st⟩ : VItem) = some it := hg
    have hit : (⟨fe.1, ce.1, ce.2, st⟩ : VItem) = it := by injection hg'
    subst hit
    refine ⟨rfl, ?_, hl⟩
    simpa using hce

/-- Membership in the accumulated fold of `buildComments`. -/
theorem buildComments_go_mem (mr : List ((String × String) × String)) :
    ∀ (files : List (String × List (String × String))) (acc : List VItem)
      (it : VItem),
      it ∈ files.foldl (fun acc fe => acc ++ collectFile mr fe) acc →
        it ∈ acc ∨ ∃ fe ∈ files, it ∈ collectFile mr fe := by
  intro files
  induction files with
  | nil => intro acc it h; exact Or.inl h
  | cons fe files ih =>
    intro acc it h
    rw [List.foldl_cons] at h
    rcases ih _ it h with h' | ⟨fe', hfe', hit⟩
    · rcases List.mem_append.mp h' with h'' | h''
      · exact Or.inl h''
      · exact Or.inr ⟨fe, List.mem_cons_self fe files, h''⟩
    · exact Or.inr ⟨fe', List.mem_cons_of_mem fe hfe', hit⟩

/-- Every comment assembled by `validate.py` has a matching entry in the
model results, carrying exactly the stance looked up for its key. -/
theorem buildComments_lookup (mr : List ((String × String) × String))
    (files : List (String × List (String × String))) (it : VItem)
    (h : it ∈ buildComments mr files) :
    lookupResult mr (it.filename, it.comment_id) = some it.stance := by
  unfold buildComments at h
  rcases buildComments_go_mem mr files [] it h with h0 | ⟨fe, _, hit⟩
  · exact absurd h0 (List.not_mem_nil it)
  · obtain ⟨hfn, _, hl⟩ := collectFile_mem mr fe it hit
    rw [hfn]
    exact hl

/-- Distinct comment identifiers within one JSON file yield distinct
collected items. -/
theorem collectFile_nodup (mr : List ((String × String) × String))
    (fe : String × List (String × String))
    (h : (fe.2.map Prod.fst).Nodup) : (collectFile mr fe).Nodup := by
  unfold collectFile
  refine (List.Nodup.of_map Prod.fst h).filterMap ?_
  intro a a' b hb hb'
  rcases hla : lookupResult mr (fe.1, a.1) with _ | st
  · rw [hla] at hb
    cases hb
  · rw [hla] at hb
    rcases hla' : lookupResult mr (fe.1, a'.1) with _ | st'
    · rw [hla'] at hb'
      cases hb'
    · rw [hla'] at hb'
      have hba : b = ⟨fe.1, a.1, a.2, st⟩ := by simpa using hb.symm
      have hba' : b = ⟨fe.1, a'.1, a'.2, st'⟩ := by simpa using hb'.symm
      have h1 : a.1 = a'.1 := by rw [hba] at hba'; injection hba'
      have h2 : a.2 = a'.2 := by
        rw [hba] at hba'
        injection hba' with e1 e2 e3 e4
      exact Prod.ext h1 h2

/-- The fold of `buildComments` preserves distinctness as long as file
names are distinct and never repeat a filename already collected. -/
theorem buildComments_go_nodup (mr : List ((String × String) × String)) :
    ∀ (files : List (String × List (String × String))) (acc : List VItem),
      acc.Nodup →
      (∀ it ∈ acc, ∀ fe ∈ files, it.filename ≠ fe.1) →
      (files.map Prod.fst).Nodup →
      (∀ fe ∈ files, (fe.2.map Prod.fst).Nodup) →
      (files.foldl (fun acc fe => acc ++ collectFile mr fe) acc).Nodup := by
  intro files
  induction files with
  | nil => intro acc ha _ _ _; exact ha
  | cons fe files ih =>
    intro acc ha hdisj h1 h2
    rw [List.foldl_cons]
    have hcoll : (collectFile mr fe).Nodup :=
      collectFile_nodup mr fe (h2 fe (List.mem_cons_self fe files))
    have hfe1 : fe.1 ∉ files.map Prod.fst := by
      have := h1
      simp only [List.map_cons, List.nodup_cons] at this
      exact this.1
    refine ih (acc ++ collectFile mr fe) ?_ ?_ ?_ ?_
    · refine ha.append hcoll ?_
      intro it hita hitc
      exact hdisj it hita fe (List.mem_cons_self fe files)
        (collectFile_mem mr fe it hitc).1
    · intro it hit fe' hfe'
      rcases List.mem_append.mp hit with h' | h'
      · exact hdisj it h' fe' (List.mem_cons_of_mem fe hfe')
      · rw [(collectFile_mem mr fe it h').1]
        intro he
        exact hfe1 (he ▸ List.mem_map_of_mem Prod.fst hfe')
    · have := h1
      simp only [List.map_cons, List.nodup_cons] at this
      exact this.2
    · intro fe' hfe'
      exact h2 fe' (List.mem_cons_of_mem fe hfe')

/-- Under the guarantees of the real inputs — `glob` lists each JSON
file once and `json.load` yields distinct keys per file — the assembled
comment list has no duplicate item. -/
theorem buildComments_nodup (mr : List ((String × String) × String))
    (files : List (String × List (String × String)))
    (h1 : (files.map Prod.fst).Nodup)
    (h2 : ∀ fe ∈ files, (fe.2.map Prod.fst).Nodup) :
    (buildComments mr files).Nodup :=
  buildComments_go_nodup mr files [] List.nodup_nil (by simp) h1 h2

/-- C8 (amended): for a non-negative requested sample count, and under
the guarantees of the real inputs (distinct JSON file names, distinct
keys within each file, and a shuffle that permutes the matched
comments), `validate.py` samples exactly
`min(num_samples, number of matched comments)` distinct items, all drawn
from the matched comments (hence all present in the model results), and
reports an agreement rate equal to `100 *` (number of sampled items
whose human label equals the model stance) `/` (number of sampled
items). -/
theorem validate_samples_and_agreement (num_samples : Int)
    (mr : List ((String × String) × String))
    (files : List (String × List (String × String)))
    (shuffled : List VItem) (u : Nat → String)
    (hperm : shuffled.Perm (buildComments mr files))
    (hn : 0 ≤ num_samples)
    (h1 : (files.map Prod.fst).Nodup)
    (h2 : ∀ fe ∈ files, (fe.2.map Prod.fst).Nodup) :
    ((runValidate num_samples mr files shuffled u).sampled.length : Int) =
      min num_samples ((buildComments mr files).length : Int) ∧
    (runValidate num_samples mr files shuffled u).sampled.Nodup ∧
    (∀ it ∈ (runValidate num_samples mr files shuffled u).sampled,
        it ∈ buildComments mr files ∧
        lookupResult mr (it.filename, it.comment_id) = some it.stance) ∧
    (runValidate num_samples mr files shuffled u).agreement =
      100 * (((runValidate num_samples mr files shuffled u).sampled.enum.filter
          (fun p => decide (p.2.stance = u p.1))).length : ℚ) /
        ((runValidate num_samples mr files shuffled u).sampled.length : ℚ) := by
  have hmin : 0 ≤ min num_samples ((buildComments mr files).length : Int) :=
    le_min hn (Int.natCast_nonneg _)
  have hsamp : (runValidate num_samples mr files shuffled u).sampled =
      shuffled.take
        (min num_samples ((buildComments mr files).length : Int)).toNat := by
    show pySlice shuffled
        (min num_samples ((buildComments mr files).length : Int)) = _
    rw [pySlice, if_pos hmin]
  have hshuf : shuffled.length = (buildComments mr files).length :=
    hperm.length_eq
  refine ⟨?_, ?_, ?_, ?_⟩
  · rw [hsamp, List.length_take, hshuf]
    omega
  · have hCn := buildComments_nodup mr files h1 h2
    have hsh : shuffled.Nodup := hperm.symm.nodup hCn
    rw [hsamp]
    exact hsh.sublist (List.take_sublist _ _)
  · intro it hit
    rw [hsamp] at hit
    have h5 : it ∈ shuffled := (List.take_sublist _ _).subset hit
    have h6 : it ∈ buildComments mr files := hperm.mem_iff.mp h5
    exact ⟨h6, buildComments_lookup mr files it h6⟩
  · have hagree : (runValidate num_samples mr files shuffled u).agreement =
        (if 0 < (((runValidate num_samples mr files shuffled u).sampled.enum.map
              (fun p => (p.2, u p.1))).length) then
          (((((runValidate num_samples mr files shuffled u).sampled.enum.map
                (fun p => (p.2, u p.1))).filter
              (fun r => decide (r.1.stance = r.2))).length : ℚ)) /
            ((((runValidate num_samples mr files shuffled u).sampled.enum.map
                (fun p => (p.2, u p.1))).length : ℚ)) * 100
        else 0) := rfl
    rw [hagree, List.filter_map]
    simp only [List.length_map, List.enum_length, Function.comp_def]
    by_cases hpos : 0 < (runValidate num_samples mr files shuffled u).sampled.length
    · rw [if_pos hpos]
      ring
    · rw [if_neg hpos]
      have h0 : (runValidate num_samples mr files shuffled u).sampled = [] :=
        List.length_eq_zero.mp (by omega)
      rw [h0]
      simp

/-- C8 (counterexample): `num_samples` is a plain `int`; at
`num_samples = -1` with two matched comments and the identity shuffle,
the Python slice `comments[:-1]` keeps one item, not
`min(num_samples, 2) = -1` items, so the claimed sample count formula
fails. -/
theorem validate_negative_samples_counterexample :
    (runValidate (-1) mrW filesW (buildComments mrW filesW) uW).sampled.length = 1 ∧
    (buildComments mrW filesW).length = 2 ∧
    min (-1 : Int) ((buildComments mrW filesW).length : Int) = -1 := by
  refine ⟨?_, ?_, ?_⟩ <;> decide

/-- C8 (witness): requesting one sample from the two matched witness
comments samples exactly one, and the reported rate matches the
agreement formula. -/
theorem validate_samples_and_agreement_witness :
    ((runValidate 1 mrW filesW (buildComments mrW filesW) uW).sampled.length : Int) =
      min 1 ((buildComments mrW filesW).length : Int) ∧
    (runValidate 1 mrW filesW (buildComments mrW filesW) uW).agreement =
      100 * (((runValidate 1 mrW filesW (buildComments mrW filesW) uW).sampled.enum.filter
          (fun p => decide (p.2.stance = uW p.1))).length : ℚ) /
        ((runValidate 1 mrW filesW (buildComments mrW filesW) uW).sampled.length : ℚ) :=
  ⟨(validate_samples_and_agreement 1 mrW filesW (buildComments mrW filesW) uW
      (List.Perm.refl _) (by decide) (by decide) (by decide)).1,
   (validate_samples_and_agreement 1 mrW filesW (buildComments mrW filesW) uW
      (List.Perm.refl _) (by decide) (by decide) (by decide)).2.2.2⟩

end Classify212
